import Mathlib

/-!
Shallow embedding of the wikigoapi core (src/main.go): the sparse index
builder (`loadIndex`), the lookup facade (`fetchArticle`,
`randomArticleHash`, `randomArticle`) and the block decoder / document
locator (`readArticle`).

Modelling conventions:
* Go strings are `List Char` so that splitting/joining can be reasoned about.
* Go maps (`map[uint64]indexEntry`, `map[int]int`) are association lists with
  Go map semantics: `setKV` replaces an existing binding or appends a fresh
  one, `getKV` looks the key up, and a missing `map[int]int` key reads as 0.
* The 64-bit city hash is an abstract parameter `hash : List Char → Nat`;
  every theorem is parametric in it (the code relies on no property of the
  hash beyond determinism).
* The bzip2 archive handed to `readArticle` is abstracted as a function
  `archive : Int → Nat → Except String page`: seeking to byte offset `o` and
  decoding the `i`-th XML document from there yields `archive o i` (an
  `.error` models a decode failure at that position).
* The mutex-guarded global `mu` is explicit state of type `IndexState`;
  operations that read it are state-passing (`… × IndexState`) so that
  frame properties can be stated.
-/

instance {ε α : Type} [DecidableEq ε] [DecidableEq α] : DecidableEq (Except ε α) := fun x y =>
  match x, y with
  | .error a, .error b =>
    if h : a = b then isTrue (congrArg Except.error h)
    else isFalse (fun hc => h (Except.error.inj hc))
  | .ok a, .ok b =>
    if h : a = b then isTrue (congrArg Except.ok h)
    else isFalse (fun hc => h (Except.ok.inj hc))
  | .error _, .ok _ => isFalse (fun hc => Except.noConfusion hc)
  | .ok _, .error _ => isFalse (fun hc => Except.noConfusion hc)

/-- Go: `type indexEntry struct { id, seek int }`. -/
structure indexEntry where
  id : Int
  seek : Int
deriving DecidableEq, Repr

/-- Go: the fields of the guarded global `mu`:
`offsets map[uint64]indexEntry` and `offsetSize map[int]int`. -/
structure IndexState where
  offsets : List (Nat × indexEntry)
  offsetSize : List (Int × Nat)
deriving DecidableEq, Repr

/-- Go: the zero value of both maps right after `var mu = …{ offsets: …{}, offsetSize: …{} }`. -/
def initState : IndexState := ⟨[], []⟩

/-- Go map read `m[k]` returning `(value, ok)` — the value part as an `Option`. -/
def getKV {κ α : Type} [DecidableEq κ] : List (κ × α) → κ → Option α
  | [], _ => none
  | (k', v) :: rest, k => if k' = k then some v else getKV rest k

/-- Go map write `m[k] = v`: replace the binding if the key is present, else add it. -/
def setKV {κ α : Type} [DecidableEq κ] : List (κ × α) → κ → α → List (κ × α)
  | [], k, v => [(k, v)]
  | (k', v') :: rest, k, v =>
    if k' = k then (k, v) :: rest else (k', v') :: setKV rest k v

/-- Keys of an association list. -/
def keysOf {κ α : Type} (m : List (κ × α)) : List κ := m.map Prod.fst

/-- Go: `strings.Split(s, ":")` for a one-character separator. -/
def splitOnChar (sep : Char) : List Char → List (List Char)
  | [] => [[]]
  | c :: cs =>
    if c = sep then [] :: splitOnChar sep cs
    else
      match splitOnChar sep cs with
      | [] => [[c]]
      | p :: ps => (c :: p) :: ps

/-- Go: `strings.Join(parts, ":")` for a one-character separator. -/
def joinWith (sep : Char) : List (List Char) → List Char
  | [] => []
  | [p] => p
  | p :: ps => p ++ sep :: joinWith sep ps

/-- ASCII decimal digit test used by `strconv.Atoi`. -/
def isDigitChar (c : Char) : Bool := '0' ≤ c ∧ c ≤ '9'

/-- Value of a digit list, most significant first. -/
def digitsToNat (s : List Char) : Nat :=
  s.foldl (fun a c => a * 10 + (c.toNat - '0'.toNat)) 0

/-- Go: `strconv.Atoi` — an optional sign followed by one or more ASCII
digits (the int64 range check is not modelled: integers are unbounded here). -/
def atoi (s : List Char) : Option Int :=
  match s with
  | [] => none
  | c :: rest =>
    if c = '+' then
      if rest ≠ [] ∧ rest.all isDigitChar then some (digitsToNat rest) else none
    else if c = '-' then
      if rest ≠ [] ∧ rest.all isDigitChar then some (-(digitsToNat rest : Int)) else none
    else if (c :: rest).all isDigitChar then some (digitsToNat (c :: rest)) else none

/-- Go: the per-line parsing in `loadIndex` — split on `:`, require at least
3 parts, parse `seek` and `id` with `Atoi`, rebuild the title with
`strings.Join(parts[2:], ":")`.  Returns `(seek, id, title)`. -/
def parseLine (line : List Char) : Except String (Int × Int × List Char) :=
  match splitOnChar ':' line with
  | a :: b :: c :: rest =>
    match atoi a with
    | none => .error "parsing seek: invalid syntax"
    | some seek =>
      match atoi b with
      | none => .error "parsing id: invalid syntax"
      | some id => .ok (seek, id, joinWith ':' (c :: rest))
  | _ => .error "expected at least 3 parts"

/-- Go: the body of the scanner loop in `loadIndex` for one line — on a
parse failure the whole build errors; otherwise `mu.offsets[titleHash] = entry`
and `mu.offsetSize[entry.seek]++` under the lock. -/
def processLine (hash : List Char → Nat) (st : IndexState) (line : List Char) :
    Except String IndexState :=
  match parseLine line with
  | .error e => .error e
  | .ok (seek, id, title) =>
    let entry : indexEntry := ⟨id, seek⟩
    let titleHash := hash title
    .ok { offsets := setKV st.offsets titleHash entry,
          offsetSize :=
            setKV st.offsetSize entry.seek
              (((getKV st.offsetSize entry.seek).getD 0) + 1) }

/-- Go: the scanner loop of `loadIndex` over the decompressed index stream,
one list element per line.  Returns the state of `mu` when the loop stops
(mutations before an error persist) together with the error, if any. -/
def loadLines (hash : List Char → Nat) (st : IndexState) :
    List (List Char) → IndexState × Option String
  | [] => (st, none)
  | l :: ls =>
    match processLine hash st l with
    | .ok st' => loadLines hash st' ls
    | .error e => (st, some e)

/-- Go: `loadIndex` run over a given line stream, starting from the empty maps. -/
def loadIndex (hash : List Char → Nat) (lines : List (List Char)) :
    IndexState × Option String :=
  loadLines hash initState lines

/-- Go: `strings.ToLower` (ASCII fragment). -/
def goToLower (s : List Char) : List Char := s.map Char.toLower

/-- Go: `unicode`-package `isSeparator` as used by `strings.Title`
(ASCII branch; letters, digits and underscore are non-separators). -/
def isSeparatorChar (c : Char) : Bool :=
  if isDigitChar c then false
  else if 'a' ≤ c ∧ c ≤ 'z' then false
  else if 'A' ≤ c ∧ c ≤ 'Z' then false
  else if c = '_' then false
  else true

/-- Go: the `strings.Map` closure inside `strings.Title`: title-case a rune
whose predecessor is a separator, tracking the previous rune (initially a space). -/
def goTitleAux : Char → List Char → List Char
  | _, [] => []
  | prev, c :: cs =>
    (if isSeparatorChar prev then c.toUpper else c) :: goTitleAux c cs

/-- Go: `strings.Title`. -/
def goTitle (s : List Char) : List Char := goTitleAux ' ' s

/-- Go: the normalized fallback key `strings.Title(strings.ToLower(name))`
used in `fetchArticle`. -/
def normalizeTitle (s : List Char) : List Char := goTitle (goToLower s)

/-- Error value of `statusErrorf(http.StatusNotFound, "article not found: %q", name)`:
a status code wrapping the offending title. -/
inductive FetchError where
  | notFound (code : Nat) (title : List Char)
deriving DecidableEq, Repr

/-- Go: `fetchArticle` — exact-hash lookup, then normalized-hash lookup, then
a 404 carrying the original name; the lock is held for the whole body and the
state of `mu` is returned unchanged alongside the result. -/
def fetchArticleS (hash : List Char → Nat) (name : List Char) (st : IndexState) :
    Except FetchError indexEntry × IndexState :=
  match getKV st.offsets (hash name) with
  | some articleMeta => (.ok articleMeta, st)
  | none =>
    match getKV st.offsets (hash (normalizeTitle name)) with
    | some articleMeta => (.ok articleMeta, st)
    | none => (.error (.notFound 404 name), st)

/-- Result part of `fetchArticle`. -/
def fetchArticle (hash : List Char → Nat) (st : IndexState) (name : List Char) :
    Except FetchError indexEntry :=
  (fetchArticleS hash name st).1

/-- Go: `type page struct { … }` (string fields as `List Char`). -/
structure page where
  Title : List Char := []
  NS : Int := 0
  ID : Int := 0
  Redirect : List (List Char) := []
  RevisionID : List Char := []
  Timestamp : List Char := []
  Username : List Char := []
  UserID : List Char := []
  Model : List Char := []
  Format : List Char := []
  Text : List Char := []
deriving DecidableEq, Repr

/-- Go: the decode loop of `readArticle` — `for i := 0; i < maxTries; i++`
decode the next document, propagate a decode error, return the document as
soon as its id matches.  `fuel` is the number of remaining iterations
(`maxTries - i`), making the recursion structural. -/
def locateLoop (decode : Nat → Except String page) (targetId : Int)
    (maxTries : Nat) : Nat → Nat → Except String page
  | _, 0 => .error ("failed to find page after " ++ toString maxTries ++ " tries")
  | i, fuel + 1 =>
    match decode i with
    | .error e => .error e
    | .ok p => if p.ID = targetId then .ok p else locateLoop decode targetId maxTries (i + 1) fuel

/-- Go: `readArticle` — read `maxTries := mu.offsetSize[meta.seek]` under the
lock (missing key reads 0), then seek the archive to `meta.seek` and decode up
to `maxTries` documents; `mu` is returned unchanged alongside the result. -/
def readArticleS (archive : Int → Nat → Except String page) (meta : indexEntry)
    (st : IndexState) : Except String page × IndexState :=
  let maxTries := (getKV st.offsetSize meta.seek).getD 0
  (locateLoop (archive meta.seek) meta.id maxTries 0 maxTries, st)

/-- Result part of `readArticle`. -/
def readArticle (archive : Int → Nat → Except String page) (st : IndexState)
    (meta : indexEntry) : Except String page :=
  (readArticleS archive meta st).1

/-- Go: `randomArticleHash` — the first key yielded by ranging over
`mu.offsets`, or `errors.Errorf("no articles")` when the map is empty;
`mu` is returned unchanged alongside the result. -/
def randomArticleHashS (st : IndexState) : Except String Nat × IndexState :=
  match st.offsets with
  | [] => (.error "no articles", st)
  | (h, _) :: _ => (.ok h, st)

/-- Result part of `randomArticleHash`. -/
def randomArticleHash (st : IndexState) : Except String Nat :=
  (randomArticleHashS st).1

/-- Go: `randomArticle` — pick a hash, read its entry (a missing key yields
the zero `indexEntry`), then `readArticle`. -/
def randomArticle (archive : Int → Nat → Except String page)
    (st : IndexState) : Except String page :=
  match randomArticleHash st with
  | .error e => .error e
  | .ok h => readArticle archive st ((getKV st.offsets h).getD ⟨0, 0⟩)

/-- Number of entries of the `offsets` map whose `seek` (block offset) is `o` —
the right-hand side of the `countByOffset` invariant. -/
def countSeek (m : List (Nat × indexEntry)) (o : Int) : Nat :=
  (m.filter (fun kv => kv.2.seek = o)).length

/-- Recorded collision count for offset `o`: Go's `mu.offsetSize[o]` with a
missing key reading as 0. -/
def sizeAt (st : IndexState) (o : Int) : Nat :=
  (getKV st.offsetSize o).getD 0

/-- Hash of the title of a (valid) index line; 0 for a malformed line. -/
def lineHash (hash : List Char → Nat) (l : List Char) : Nat :=
  match parseLine l with
  | .ok (_, _, t) => hash t
  | .error _ => 0

/-- Validity of an index line: it parses into the 3-part structure with
integer seek and id. -/
def validLine (l : List Char) : Bool := (parseLine l).toBool

/-- Concrete stand-in hash used only by witnesses and counterexamples
(injective on the short ASCII titles they use). -/
def demoHash (t : List Char) : Nat :=
  t.foldl (fun a c => a * 256 + c.toNat) 0

/-- Concrete document with id 42, used only by witnesses. -/
def page42 : page := { ID := 42 }

/-- Concrete document with id 43, used only by witnesses. -/
def page43 : page := { ID := 43 }

/-- Concrete two-document archive block at offset 1024, used only by witnesses. -/
def demoArchive : Int → Nat → Except String page := fun o r =>
  if o = 1024 then (if r = 0 then .ok page42 else .ok page43) else .error "bad seek"

/-- Concrete index state with two entries sharing offset 1024, used only by witnesses. -/
def demoState : IndexState :=
  ⟨[(demoHash ['T','e','s','t'], ⟨42, 1024⟩), (demoHash ['O','t','h','e','r'], ⟨43, 1024⟩)],
   [((1024 : Int), 2)]⟩

/-! ### Association-list (Go map) lemmas -/

theorem getKV_setKV_self {κ α : Type} [DecidableEq κ] (m : List (κ × α)) (k : κ) (v : α) :
    getKV (setKV m k v) k = some v := by
  induction m with
  | nil => simp [setKV, getKV]
  | cons hd tl ih =>
    obtain ⟨k', v'⟩ := hd
    by_cases h : k' = k
    · subst h
      simp [setKV, getKV]
    · simp [setKV, getKV, h, ih]

theorem getKV_setKV_ne {κ α : Type} [DecidableEq κ] (m : List (κ × α)) (k k' : κ) (v : α)
    (h : k' ≠ k) : getKV (setKV m k v) k' = getKV m k' := by
  have h' : ¬ k = k' := fun hc => h hc.symm
  induction m with
  | nil => simp [setKV, getKV, h']
  | cons hd tl ih =>
    obtain ⟨k'', v'⟩ := hd
    by_cases hk : k'' = k
    · subst hk
      simp [setKV, getKV, h']
    · simp only [setKV, if_neg hk, getKV]
      by_cases hk' : k'' = k'
      · simp [hk']
      · simp [hk', ih]

theorem mem_keysOf_setKV {κ α : Type} [DecidableEq κ] (m : List (κ × α)) (k a : κ) (v : α)
    (h : a ∈ keysOf (setKV m k v)) : a = k ∨ a ∈ keysOf m := by
  induction m with
  | nil => simpa [setKV, keysOf] using h
  | cons hd tl ih =>
    obtain ⟨k', v'⟩ := hd
    by_cases hk : k' = k
    · subst hk
      simpa [setKV, keysOf] using h
    · simp only [setKV, if_neg hk, keysOf, List.map_cons, List.mem_cons] at h
      rcases h with h | h
      · exact Or.inr (by simp [keysOf, h])
      · rcases ih h with h' | h'
        · exact Or.inl h'
        · exact Or.inr (by simp [keysOf] at h' ⊢; exact Or.inr h')

theorem countSeek_cons (k : Nat) (v : indexEntry) (m : List (Nat × indexEntry)) (o : Int) :
    countSeek ((k, v) :: m) o = (if v.seek = o then 1 else 0) + countSeek m o := by
  by_cases h : v.seek = o <;> simp [countSeek, List.filter, h, Nat.add_comm]

theorem countSeek_setKV_fresh (m : List (Nat × indexEntry)) (k : Nat) (e : indexEntry)
    (o : Int) (h : k ∉ keysOf m) :
    countSeek (setKV m k e) o = countSeek m o + (if e.seek = o then 1 else 0) := by
  induction m with
  | nil =>
    by_cases he : e.seek = o <;> simp [setKV, countSeek, List.filter, he]
  | cons hd tl ih =>
    obtain ⟨k', v'⟩ := hd
    have hk : k' ≠ k := by
      intro hc
      exact h (by simp [keysOf, hc])
    have htl : k ∉ keysOf tl := by
      intro hc
      exact h (by simp [keysOf] at hc ⊢; exact Or.inr hc)
    simp only [setKV, if_neg hk, countSeek_cons, ih htl]
    omega

/-! ### Split / join lemmas -/

theorem splitOnChar_ne_nil (sep : Char) (s : List Char) : splitOnChar sep s ≠ [] := by
  cases s with
  | nil => simp [splitOnChar]
  | cons c cs =>
    by_cases h : c = sep
    · simp [splitOnChar, h]
    · simp only [splitOnChar, if_neg h]
      cases splitOnChar sep cs <;> simp

theorem splitOnChar_sep_append (a b : List Char) (h : ':' ∉ a) :
    splitOnChar ':' (a ++ ':' :: b) = a :: splitOnChar ':' b := by
  induction a with
  | nil => simp [splitOnChar]
  | cons c a' ih =>
    have hc : ¬ c = ':' := fun hc => h (by simp [hc])
    have ha : ':' ∉ a' := fun hm => h (by simp [hm])
    simp only [List.cons_append, splitOnChar, if_neg hc, List.append_eq, ih ha]

theorem joinWith_splitOnChar (sep : Char) (s : List Char) :
    joinWith sep (splitOnChar sep s) = s := by
  induction s with
  | nil => simp [splitOnChar, joinWith]
  | cons c cs ih =>
    by_cases h : c = sep
    · subst h
      obtain ⟨p, ps, hps⟩ : ∃ p ps, splitOnChar c cs = p :: ps := by
        cases hx : splitOnChar c cs with
        | nil => exact absurd hx (splitOnChar_ne_nil c cs)
        | cons p ps => exact ⟨p, ps, rfl⟩
      simp only [splitOnChar, if_pos rfl, hps, joinWith]
      rw [hps] at ih
      simp [ih]
    · obtain ⟨p, ps, hps⟩ : ∃ p ps, splitOnChar sep cs = p :: ps := by
        cases hx : splitOnChar sep cs with
        | nil => exact absurd hx (splitOnChar_ne_nil sep cs)
        | cons p ps => exact ⟨p, ps, rfl⟩
      simp only [splitOnChar, if_neg h, hps]
      rw [hps] at ih
      cases ps with
      | nil => simpa [joinWith] using ih
      | cons q qs =>
        simp only [joinWith] at ih ⊢
        simp [ih]

/-! ### Parsing / loading lemmas -/

theorem validLine_ok (l : List Char) (h : validLine l = true) :
    ∃ o i t, parseLine l = .ok (o, i, t) := by
  unfold validLine at h
  cases hp : parseLine l with
  | error e => rw [hp] at h; simp [Except.toBool, Except.isOk] at h
  | ok r => obtain ⟨o, i, t⟩ := r; exact ⟨o, i, t, rfl⟩

theorem validLine_of_parse (l : List Char) (o i : Int) (t : List Char)
    (h : parseLine l = .ok (o, i, t)) : validLine l = true := by
  unfold validLine
  rw [h]
  rfl

theorem processLine_of_parse (hash : List Char → Nat) (st : IndexState) (l : List Char)
    (o i : Int) (t : List Char) (h : parseLine l = .ok (o, i, t)) :
    processLine hash st l =
      .ok { offsets := setKV st.offsets (hash t) ⟨i, o⟩,
            offsetSize := setKV st.offsetSize o (((getKV st.offsetSize o).getD 0) + 1) } := by
  unfold processLine
  rw [h]

theorem processLine_ok_of_valid (hash : List Char → Nat) (st : IndexState) (l : List Char)
    (h : validLine l = true) : ∃ st', processLine hash st l = .ok st' := by
  obtain ⟨o, i, t, hp⟩ := validLine_ok l h
  exact ⟨_, processLine_of_parse hash st l o i t hp⟩

theorem processLine_error_of_invalid (hash : List Char → Nat) (st : IndexState) (l : List Char)
    (h : ¬ validLine l = true) : ∃ e, processLine hash st l = .error e := by
  unfold validLine at h
  cases hp : parseLine l with
  | error e => exact ⟨e, by unfold processLine; rw [hp]⟩
  | ok r => rw [hp] at h; simp [Except.toBool, Except.isOk] at h

theorem loadLines_valid_none (hash : List Char → Nat) (ls : List (List Char)) :
    ∀ st : IndexState, (∀ l ∈ ls, validLine l = true) → (loadLines hash st ls).2 = none := by
  induction ls with
  | nil => intro st _; rfl
  | cons l ls ih =>
    intro st hv
    obtain ⟨st', hst'⟩ := processLine_ok_of_valid hash st l (hv l (by simp))
    simp only [loadLines, hst']
    exact ih st' (fun l' hl' => hv l' (by simp [hl']))

theorem loadLines_append (hash : List Char → Nat) (xs : List (List Char)) :
    ∀ (st : IndexState) (ys : List (List Char)), (loadLines hash st xs).2 = none →
      loadLines hash st (xs ++ ys) = loadLines hash (loadLines hash st xs).1 ys := by
  induction xs with
  | nil => intro st ys _; rfl
  | cons x xs ih =>
    intro st ys h
    cases hp : processLine hash st x with
    | error e =>
      rw [show loadLines hash st (x :: xs) = (st, some e) by simp [loadLines, hp]] at h
      simp at h
    | ok st1 =>
      have hh : loadLines hash st (x :: xs) = loadLines hash st1 xs := by
        simp [loadLines, hp]
      rw [hh] at h
      calc loadLines hash st ((x :: xs) ++ ys)
          = loadLines hash st1 (xs ++ ys) := by simp [loadLines, hp]
        _ = loadLines hash (loadLines hash st1 xs).1 ys := ih st1 ys h
        _ = loadLines hash (loadLines hash st (x :: xs)).1 ys := by rw [hh]

theorem loadLines_frame (hash : List Char → Nat) (ls : List (List Char)) (h : Nat) :
    ∀ st : IndexState, (∀ l ∈ ls, lineHash hash l ≠ h) →
      getKV (loadLines hash st ls).1.offsets h = getKV st.offsets h := by
  induction ls with
  | nil => intro st _; rfl
  | cons l ls ih =>
    intro st hno
    cases hq : parseLine l with
    | error e =>
      have hp : processLine hash st l = .error e := by
        unfold processLine; rw [hq]
      simp [loadLines, hp]
    | ok r =>
      obtain ⟨o, i, t⟩ := r
      have hp := processLine_of_parse hash st l o i t hq
      have hne : hash t ≠ h := by
        have hh := hno l (by simp)
        unfold lineHash at hh
        rwa [hq] at hh
      simp only [loadLines, hp]
      rw [ih _ (fun l' hl' => hno l' (by simp [hl']))]
      exact getKV_setKV_ne st.offsets (hash t) h ⟨i, o⟩ (fun hc => hne hc.symm)

theorem sizeAt_processLine_ge (hash : List Char → Nat) (st st' : IndexState) (l : List Char)
    (o : Int) (h : processLine hash st l = .ok st') : sizeAt st o ≤ sizeAt st' o := by
  unfold processLine at h
  cases hq : parseLine l with
  | error e => rw [hq] at h; exact absurd h (by simp)
  | ok r =>
    obtain ⟨so, ⟨si, t⟩⟩ := r
    rw [hq] at h
    simp only [Except.ok.injEq] at h
    subst h
    unfold sizeAt
    by_cases hso : so = o
    · subst hso
      simp [getKV_setKV_self]
    · simp [getKV_setKV_ne st.offsetSize so o _ (fun hc => hso hc.symm)]

theorem sizeAt_loadLines_ge (hash : List Char → Nat) (ls : List (List Char)) (o : Int) :
    ∀ st : IndexState, sizeAt st o ≤ sizeAt (loadLines hash st ls).1 o := by
  induction ls with
  | nil => intro st; exact Nat.le_refl _
  | cons l ls ih =>
    intro st
    cases hp : processLine hash st l with
    | error e => simp [loadLines, hp]
    | ok st1 =>
      simp only [loadLines, hp]
      exact Nat.le_trans (sizeAt_processLine_ge hash st st1 l o hp) (ih st1)

/-! ### Decode-loop lemmas -/

theorem locateLoop_succ_err (decode : Nat → Except String page) (tid : Int) (mt i fuel : Nat)
    (e : String) (hd : decode i = .error e) :
    locateLoop decode tid mt i (fuel + 1) = .error e := by
  simp [locateLoop, hd]

theorem locateLoop_succ_ok (decode : Nat → Except String page) (tid : Int) (mt i fuel : Nat)
    (q : page) (hd : decode i = .ok q) :
    locateLoop decode tid mt i (fuel + 1) =
      if q.ID = tid then .ok q else locateLoop decode tid mt (i + 1) fuel := by
  simp [locateLoop, hd]

theorem locateLoop_ok_id (decode : Nat → Except String page) (tid : Int) (mt : Nat) :
    ∀ (fuel i : Nat) (p : page), locateLoop decode tid mt i fuel = .ok p → p.ID = tid := by
  intro fuel
  induction fuel with
  | zero => intro i p h; exact absurd h (by simp [locateLoop])
  | succ fuel ih =>
    intro i p h
    cases hd : decode i with
    | error e =>
      rw [locateLoop_succ_err decode tid mt i fuel e hd] at h
      exact absurd h (by simp)
    | ok q =>
      rw [locateLoop_succ_ok decode tid mt i fuel q hd] at h
      by_cases hq : q.ID = tid
      · rw [if_pos hq] at h
        cases h
        exact hq
      · rw [if_neg hq] at h
        exact ih (i + 1) p h

theorem locateLoop_first (decode : Nat → Except String page) (tid : Int) (mt : Nat) :
    ∀ (fuel i j : Nat) (p : page), i ≤ j → j < i + fuel → decode j = .ok p → p.ID = tid →
      (∀ r, i ≤ r → r < j → ∃ q, decode r = .ok q ∧ q.ID ≠ tid) →
      locateLoop decode tid mt i fuel = .ok p := by
  intro fuel
  induction fuel with
  | zero => intro i j p hij hj _ _ _; exact absurd hj (by omega)
  | succ fuel ih =>
    intro i j p hij hj hd hp hpre
    by_cases hji : j = i
    · subst hji
      rw [locateLoop_succ_ok decode tid mt j fuel p hd, if_pos hp]
    · have hii : i < j := Nat.lt_of_le_of_ne hij (fun hc => hji hc.symm)
      obtain ⟨q, hq, hqne⟩ := hpre i (Nat.le_refl i) hii
      rw [locateLoop_succ_ok decode tid mt i fuel q hq, if_neg hqne]
      exact ih (i + 1) j p hii (by omega) hd hp (fun r hr1 hr2 => hpre r (by omega) hr2)

theorem locateLoop_congr (d1 d2 : Nat → Except String page) (tid : Int) (mt : Nat) :
    ∀ (fuel i : Nat), (∀ r, i ≤ r → r < i + fuel → d2 r = d1 r) →
      locateLoop d2 tid mt i fuel = locateLoop d1 tid mt i fuel := by
  intro fuel
  induction fuel with
  | zero => intro i _; rfl
  | succ fuel ih =>
    intro i hag
    have h0 : d2 i = d1 i := hag i (Nat.le_refl i) (by omega)
    cases hd : d1 i with
    | error e =>
      rw [locateLoop_succ_err d2 tid mt i fuel e (h0.trans hd),
        locateLoop_succ_err d1 tid mt i fuel e hd]
    | ok q =>
      rw [locateLoop_succ_ok d2 tid mt i fuel q (h0.trans hd),
        locateLoop_succ_ok d1 tid mt i fuel q hd]
      by_cases hq : q.ID = tid
      · rw [if_pos hq, if_pos hq]
      · rw [if_neg hq, if_neg hq]
        exact ih (i + 1) (fun r h1 h2 => hag r (by omega) (by omega))

theorem locateLoop_exhaust (decode : Nat → Except String page) (tid : Int) (mt : Nat) :
    ∀ (fuel i : Nat), (∀ r, i ≤ r → r < i + fuel → ∃ q, decode r = .ok q ∧ q.ID ≠ tid) →
      locateLoop decode tid mt i fuel =
        .error ("failed to find page after " ++ toString mt ++ " tries") := by
  intro fuel
  induction fuel with
  | zero => intro i _; rfl
  | succ fuel ih =>
    intro i hall
    obtain ⟨q, hq, hqne⟩ := hall i (Nat.le_refl i) (by omega)
    rw [locateLoop_succ_ok decode tid mt i fuel q hq, if_neg hqne]
    exact ih (i + 1) (fun r h1 h2 => hall r (by omega) (by omega))

/-! ### Digit-string lemmas -/

theorem isDigitChar_ne_colon (c : Char) (h : isDigitChar c = true) : c ≠ ':' := by
  intro hc
  rw [hc] at h
  exact absurd h (by decide)

theorem all_digits_no_colon (s : List Char) (h : s.all isDigitChar = true) : ':' ∉ s := by
  intro hm
  exact isDigitChar_ne_colon ':' (List.all_eq_true.mp h ':' hm) rfl

theorem atoi_cons (c : Char) (rest : List Char) :
    atoi (c :: rest) =
      if c = '+' then
        if rest ≠ [] ∧ rest.all isDigitChar then some ((digitsToNat rest : Int)) else none
      else if c = '-' then
        if rest ≠ [] ∧ rest.all isDigitChar then some (-(digitsToNat rest : Int)) else none
      else if (c :: rest).all isDigitChar then some ((digitsToNat (c :: rest) : Int)) else none :=
  rfl

theorem atoi_no_colon (s : List Char) (n : Int) (h : atoi s = some n) : ':' ∉ s := by
  intro hm
  cases s with
  | nil => simp at hm
  | cons c rest =>
    rw [atoi_cons] at h
    have hrest : rest.all isDigitChar = true → ':' ∉ rest := fun ha hc =>
      absurd (List.all_eq_true.mp ha ':' hc) (by decide)
    by_cases h1 : c = '+'
    · rw [if_pos h1] at h
      by_cases h2 : rest ≠ [] ∧ rest.all isDigitChar
      · rcases List.mem_cons.mp hm with hc | hc
        · exact absurd (hc.trans h1) (by decide)
        · exact hrest h2.2 hc
      · rw [if_neg h2] at h
        exact absurd h (by simp)
    · rw [if_neg h1] at h
      by_cases h3 : c = '-'
      · rw [if_pos h3] at h
        by_cases h2 : rest ≠ [] ∧ rest.all isDigitChar
        · rcases List.mem_cons.mp hm with hc | hc
          · exact absurd (hc.trans h3) (by decide)
          · exact hrest h2.2 hc
        · rw [if_neg h2] at h
          exact absurd h (by simp)
      · rw [if_neg h3] at h
        by_cases h5 : (c :: rest).all isDigitChar = true
        · exact absurd (List.all_eq_true.mp h5 ':' hm) (by decide)
        · rw [if_neg h5] at h
          exact absurd h (by simp)

/-! ### The countByOffset invariant under fresh-hash insertions -/

theorem loadLines_sizeInv (hash : List Char → Nat) (ls : List (List Char)) :
    ∀ st : IndexState,
      (∀ l ∈ ls, validLine l = true) →
      ls.Pairwise (fun a b => lineHash hash a ≠ lineHash hash b) →
      (∀ l ∈ ls, lineHash hash l ∉ keysOf st.offsets) →
      (∀ o, sizeAt st o = countSeek st.offsets o) →
      (∀ o, sizeAt (loadLines hash st ls).1 o = countSeek (loadLines hash st ls).1.offsets o) := by
  induction ls with
  | nil => intro st _ _ _ hinv o; exact hinv o
  | cons l ls ih =>
    intro st hv hpw hfresh hinv o
    obtain ⟨so, si, t, hq⟩ := validLine_ok l (hv l (by simp))
    have hlh : lineHash hash l = hash t := by unfold lineHash; rw [hq]
    have hp := processLine_of_parse hash st l so si t hq
    have hfreshl : hash t ∉ keysOf st.offsets := by
      rw [← hlh]; exact hfresh l (by simp)
    simp only [loadLines, hp]
    refine ih _ (fun l' hl' => hv l' (by simp [hl'])) (List.pairwise_cons.mp hpw).2 ?_ ?_ o
    · intro l' hl' hmem
      rcases mem_keysOf_setKV st.offsets (hash t) _ ⟨si, so⟩ hmem with he | he
      · exact ((List.pairwise_cons.mp hpw).1 l' hl') (by rw [hlh, he])
      · exact hfresh l' (by simp [hl']) he
    · intro o'
      show ((getKV (setKV st.offsetSize so (((getKV st.offsetSize so).getD 0) + 1)) o').getD 0)
        = countSeek (setKV st.offsets (hash t) ⟨si, so⟩) o'
      rw [countSeek_setKV_fresh st.offsets (hash t) ⟨si, so⟩ o' hfreshl]
      have hbase := hinv o'
      unfold sizeAt at hbase
      by_cases hso : so = o'
      · subst hso
        rw [getKV_setKV_self]
        simp [hbase]
      · rw [getKV_setKV_ne st.offsetSize so o' _ (fun hc => hso hc.symm)]
        simp [hbase, hso]

/-! ### Facade helper lemmas -/

theorem fetchArticle_exact (hash : List Char → Nat) (st : IndexState) (name : List Char)
    (e : indexEntry) (h : getKV st.offsets (hash name) = some e) :
    fetchArticle hash st name = .ok e := by
  unfold fetchArticle fetchArticleS
  rw [h]

theorem fetchArticle_norm (hash : List Char → Nat) (st : IndexState) (name : List Char)
    (e : indexEntry) (h1 : getKV st.offsets (hash name) = none)
    (h2 : getKV st.offsets (hash (normalizeTitle name)) = some e) :
    fetchArticle hash st name = .ok e := by
  unfold fetchArticle fetchArticleS
  rw [h1, h2]

theorem fetchArticle_miss (hash : List Char → Nat) (st : IndexState) (name : List Char)
    (h1 : getKV st.offsets (hash name) = none)
    (h2 : getKV st.offsets (hash (normalizeTitle name)) = none) :
    fetchArticle hash st name = .error (.notFound 404 name) := by
  unfold fetchArticle fetchArticleS
  rw [h1, h2]

theorem parseLine_eq (line a b c : List Char) (rest : List (List Char))
    (h : splitOnChar ':' line = a :: b :: c :: rest) :
    parseLine line =
      match atoi a with
      | none => .error "parsing seek: invalid syntax"
      | some seek =>
        match atoi b with
        | none => .error "parsing id: invalid syntax"
        | some id => .ok (seek, id, joinWith ':' (c :: rest)) := by
  unfold parseLine
  rw [h]

theorem loadLines_cons_ok (hash : List Char → Nat) (st : IndexState) (l : List Char)
    (st' : IndexState) (ls : List (List Char)) (hp : processLine hash st l = .ok st') :
    loadLines hash st (l :: ls) = loadLines hash st' ls := by
  simp [loadLines, hp]

/-! ### Claim theorems -/

/-- C3: a stream whose first malformed line is `bad` makes the build return an
error; the final state is exactly the state after the valid lines before
`bad`, so no line after the first malformed one is ever loaded (the result
does not depend on `post`). -/
theorem claim_C3_malformed_aborts (hash : List Char → Nat) (st : IndexState)
    (pre post : List (List Char)) (bad : List Char)
    (hv : ∀ l ∈ pre, validLine l = true) (hb : validLine bad = false) :
    ∃ e, loadLines hash st (pre ++ bad :: post) = ((loadLines hash st pre).1, some e) := by
  revert hv
  induction pre generalizing st with
  | nil =>
    intro _
    obtain ⟨e, he⟩ := processLine_error_of_invalid hash st bad (by simp [hb])
    exact ⟨e, by simp [loadLines, he]⟩
  | cons l pre ih =>
    intro hv
    obtain ⟨st1, hst1⟩ := processLine_ok_of_valid hash st l (hv l (by simp))
    obtain ⟨e, he⟩ := ih st1 (fun l' h' => hv l' (by simp [h']))
    refine ⟨e, ?_⟩
    have h1 : loadLines hash st ((l :: pre) ++ bad :: post) =
        loadLines hash st1 (pre ++ bad :: post) := by
      simp [loadLines, hst1]
    have h2 : loadLines hash st (l :: pre) = loadLines hash st1 pre := by
      simp [loadLines, hst1]
    rw [h1, h2, he]

/-- Witness for C3 at a concrete stream: one valid line, then a malformed one,
then a line that would be valid but is never loaded. -/
theorem claim_C3_witness :
    ∃ e, loadLines demoHash initState
        ([['5', ':', '1', ':', 'A']] ++ ['z', 'z'] :: [['7', ':', '2', ':', 'B']]) =
      ((loadLines demoHash initState [['5', ':', '1', ':', 'A']]).1, some e) :=
  claim_C3_malformed_aborts demoHash initState [['5', ':', '1', ':', 'A']]
    [['7', ':', '2', ':', 'B']] ['z', 'z'] (by decide) (by decide)

/-- C4: a line `<offset>:<id>:<title>` whose title may itself contain colons
is parsed by rejoining everything after the second colon, so the parsed title
is the whole original title and the index entry is stored under `hash title`. -/
theorem claim_C4_title_rejoined (hash : List Char → Nat) (oS iS t : List Char) (o i : Int)
    (ho : atoi oS = some o) (hi : atoi iS = some i) :
    parseLine (oS ++ ':' :: (iS ++ ':' :: t)) = .ok (o, i, t) ∧
    ∀ st : IndexState,
      processLine hash st (oS ++ ':' :: (iS ++ ':' :: t)) =
        .ok { offsets := setKV st.offsets (hash t) ⟨i, o⟩,
              offsetSize := setKV st.offsetSize o (((getKV st.offsetSize o).getD 0) + 1) } := by
  have hco : ':' ∉ oS := atoi_no_colon oS o ho
  have hci : ':' ∉ iS := atoi_no_colon iS i hi
  obtain ⟨p, ps, hps⟩ : ∃ p ps, splitOnChar ':' t = p :: ps := by
    cases hx : splitOnChar ':' t with
    | nil => exact absurd hx (splitOnChar_ne_nil ':' t)
    | cons p ps => exact ⟨p, ps, rfl⟩
  have hsplit : splitOnChar ':' (oS ++ ':' :: (iS ++ ':' :: t)) = oS :: iS :: p :: ps := by
    rw [splitOnChar_sep_append oS (iS ++ ':' :: t) hco,
      splitOnChar_sep_append iS t hci, hps]
  have hparse : parseLine (oS ++ ':' :: (iS ++ ':' :: t)) = .ok (o, i, t) := by
    rw [parseLine_eq _ oS iS p ps hsplit]
    simp only [ho, hi]
    rw [← hps, joinWith_splitOnChar]
  exact ⟨hparse, fun st => processLine_of_parse hash st _ o i t hparse⟩

/-- Witness for C4 on the line `1024:42:A:B` whose title `A:B` contains a colon. -/
theorem claim_C4_witness :
    parseLine (['1', '0', '2', '4'] ++ ':' :: (['4', '2'] ++ ':' :: ['A', ':', 'B'])) =
      .ok (1024, 42, ['A', ':', 'B']) :=
  (claim_C4_title_rejoined demoHash ['1', '0', '2', '4'] ['4', '2'] ['A', ':', 'B']
    1024 42 (by decide) (by decide)).1

/-- C6: `fetchArticle` looks up the exact hash first (exact match always wins),
falls back to the hash of the normalized title only when the exact key is
absent, and when both are absent returns a 404 carrying the original title. -/
theorem claim_C6_lookup_order (hash : List Char → Nat) (st : IndexState) (name : List Char) :
    (∀ e, getKV st.offsets (hash name) = some e → fetchArticle hash st name = .ok e) ∧
    (getKV st.offsets (hash name) = none →
      ∀ e, getKV st.offsets (hash (normalizeTitle name)) = some e →
        fetchArticle hash st name = .ok e) ∧
    (getKV st.offsets (hash name) = none →
      getKV st.offsets (hash (normalizeTitle name)) = none →
        fetchArticle hash st name = .error (.notFound 404 name)) :=
  ⟨fun e h => fetchArticle_exact hash st name e h,
   fun h1 e h2 => fetchArticle_norm hash st name e h1 h2,
   fun h1 h2 => fetchArticle_miss hash st name h1 h2⟩

/-- Witness for C6: `"foo bar"` is absent but its normalized form `"Foo Bar"`
is present, so the lookup succeeds through the normalized fallback. -/
theorem claim_C6_witness :
    fetchArticle demoHash
      ⟨[(demoHash ['F', 'o', 'o', ' ', 'B', 'a', 'r'], ⟨7, 5⟩)], [((5 : Int), 1)]⟩
      ['f', 'o', 'o', ' ', 'b', 'a', 'r'] = .ok ⟨7, 5⟩ :=
  (claim_C6_lookup_order demoHash
      ⟨[(demoHash ['F', 'o', 'o', ' ', 'B', 'a', 'r'], ⟨7, 5⟩)], [((5 : Int), 1)]⟩
      ['f', 'o', 'o', ' ', 'b', 'a', 'r']).2.1 (by decide) ⟨7, 5⟩ (by decide)

/-- C7: `randomArticleHash` on an empty index returns the explicit
`"no articles"` error (and `randomArticle` propagates it), never a zero-valued
success; on a non-empty index it succeeds. -/
theorem claim_C7_empty_index (st : IndexState) (archive : Int → Nat → Except String page) :
    (st.offsets = [] →
      randomArticleHash st = .error "no articles" ∧
      randomArticle archive st = .error "no articles") ∧
    (st.offsets ≠ [] → ∃ h, randomArticleHash st = .ok h) := by
  constructor
  · intro h
    have h1 : randomArticleHash st = .error "no articles" := by
      unfold randomArticleHash randomArticleHashS
      rw [h]
    refine ⟨h1, ?_⟩
    unfold randomArticle
    rw [h1]
  · intro h
    obtain ⟨hd, tl, hst⟩ := List.exists_cons_of_ne_nil h
    refine ⟨hd.1, ?_⟩
    unfold randomArticleHash randomArticleHashS
    rw [hst]

/-- Witness for C7: the initial (empty) state fails explicitly and a populated
state succeeds. -/
theorem claim_C7_witness :
    (randomArticleHash initState = .error "no articles" ∧
      randomArticle demoArchive initState = .error "no articles") ∧
    ∃ h, randomArticleHash demoState = .ok h :=
  ⟨(claim_C7_empty_index initState demoArchive).1 rfl,
   (claim_C7_empty_index demoState demoArchive).2 (by decide)⟩

/-- C8: none of the lookup operations mutates the shared maps — each returns
the state of `mu` unchanged whether it succeeds or fails — and repeating
`readArticle` on the same entry yields the same result. -/
theorem claim_C8_lookups_pure (hash : List Char → Nat)
    (archive : Int → Nat → Except String page) (st : IndexState)
    (name : List Char) (meta : indexEntry) :
    (fetchArticleS hash name st).2 = st ∧
    (randomArticleHashS st).2 = st ∧
    (readArticleS archive meta st).2 = st ∧
    (readArticleS archive meta (readArticleS archive meta st).2).1 =
      (readArticleS archive meta st).1 := by
  refine ⟨?_, ?_, rfl, rfl⟩
  · unfold fetchArticleS
    cases getKV st.offsets (hash name) with
    | some e => rfl
    | none =>
      cases getKV st.offsets (hash (normalizeTitle name)) with
      | some e => rfl
      | none => rfl
  · unfold randomArticleHashS
    cases st.offsets with
    | nil => rfl
    | cons hd tl => rfl

/-- C10: when the entry's block offset is not a key of `offsetSize`, the
recorded count reads 0, so `readArticle` decodes nothing and fails with the
`after 0 tries` message, independent of the archive contents. -/
theorem claim_C10_zero_tries (archive : Int → Nat → Except String page)
    (st : IndexState) (meta : indexEntry) (h : getKV st.offsetSize meta.seek = none) :
    readArticle archive st meta = .error "failed to find page after 0 tries" ∧
    ∀ archive2 : Int → Nat → Except String page,
      readArticle archive2 st meta = readArticle archive st meta := by
  have hk : (getKV st.offsetSize meta.seek).getD 0 = 0 := by rw [h]; rfl
  constructor
  · simp only [readArticle, readArticleS]
    rw [hk]
    rfl
  · intro a2
    simp only [readArticle, readArticleS]
    rw [hk]
    rfl

/-- Witness for C10: offset 999 is absent from the demo state's `offsetSize`,
so the lookup fails after 0 tries even though the archive is non-trivial. -/
theorem claim_C10_witness :
    readArticle demoArchive demoState ⟨7, 999⟩ =
      .error "failed to find page after 0 tries" :=
  (claim_C10_zero_tries demoArchive demoState ⟨7, 999⟩ (by decide)).1

/-- C1: after a successful build over a stream of valid lines, fetching the
title of any line whose title hash is shared with no other line of the stream
returns exactly that line's id and offset. -/
theorem claim_C1_fetch_built_entry (hash : List Char → Nat) (pre post : List (List Char))
    (l : List Char) (o i : Int) (t : List Char)
    (hv : ∀ l' ∈ pre ++ l :: post, validLine l' = true)
    (hl : parseLine l = .ok (o, i, t))
    (hno : ∀ l' ∈ pre ++ post, lineHash hash l' ≠ hash t) :
    (loadIndex hash (pre ++ l :: post)).2 = none ∧
    fetchArticle hash (loadIndex hash (pre ++ l :: post)).1 t = .ok ⟨i, o⟩ := by
  have hvpre : ∀ l' ∈ pre, validLine l' = true := fun l' h' => hv l' (by simp [h'])
  have hnone : (loadLines hash initState pre).2 = none :=
    loadLines_valid_none hash pre initState hvpre
  refine ⟨loadLines_valid_none hash _ initState hv, ?_⟩
  unfold loadIndex
  rw [loadLines_append hash pre initState (l :: post) hnone]
  have hp := processLine_of_parse hash (loadLines hash initState pre).1 l o i t hl
  rw [loadLines_cons_ok hash (loadLines hash initState pre).1 l _ post hp]
  apply fetchArticle_exact
  rw [loadLines_frame hash post (hash t) _ (fun l' hl' => hno l' (by simp [hl']))]
  exact getKV_setKV_self (loadLines hash initState pre).1.offsets (hash t) ⟨i, o⟩

/-- Witness for C1: building from two lines and fetching the second line's
title returns that line's entry. -/
theorem claim_C1_witness :
    (loadIndex demoHash ([['5', ':', '1', ':', 'A']] ++ ['9', ':', '3', ':', 'B'] :: [])).2 =
      none ∧
    fetchArticle demoHash
        (loadIndex demoHash ([['5', ':', '1', ':', 'A']] ++ ['9', ':', '3', ':', 'B'] :: [])).1
        ['B'] = .ok ⟨3, 9⟩ :=
  claim_C1_fetch_built_entry demoHash [['5', ':', '1', ':', 'A']] [] ['9', ':', '3', ':', 'B']
    9 3 ['B'] (by decide) (by decide) (by decide)

/-- C2 as stated is false on the code: loading the same line `5:1:A` twice
leaves one entry with offset 5 in `offsets` but a recorded count of 2 in
`offsetSize`, because the hash-map write overwrites while the count still
increments. -/
theorem claim_C2_counterexample :
    sizeAt (loadIndex demoHash [['5', ':', '1', ':', 'A'], ['5', ':', '1', ':', 'A']]).1 5 ≠
      countSeek
        (loadIndex demoHash [['5', ':', '1', ':', 'A'], ['5', ':', '1', ':', 'A']]).1.offsets
        5 := by
  decide

/-- C2 (amended): after processing a prefix of valid lines whose title hashes
are pairwise distinct, `offsetSize[o]` equals the number of `offsets` entries
with block offset `o`; and — unconditionally — processing further records
never decreases `offsetSize[o]`. -/
theorem claim_C2_count_invariant (hash : List Char → Nat) (pre : List (List Char))
    (o o2 : Int) (st : IndexState) (ls : List (List Char))
    (hv : ∀ l ∈ pre, validLine l = true)
    (hdist : pre.Pairwise (fun a b => lineHash hash a ≠ lineHash hash b)) :
    sizeAt (loadIndex hash pre).1 o = countSeek (loadIndex hash pre).1.offsets o ∧
    sizeAt st o2 ≤ sizeAt (loadLines hash st ls).1 o2 := by
  constructor
  · exact loadLines_sizeInv hash pre initState hv hdist
      (fun l _ hm => by simp [initState, keysOf] at hm)
      (fun o' => by simp [sizeAt, initState, countSeek, getKV]) o
  · exact sizeAt_loadLines_ge hash ls o2 st

/-- Witness for C2 (amended): two valid lines with distinct title hashes
sharing offset 5, and a monotonicity instance on the demo state. -/
theorem claim_C2_witness :
    sizeAt (loadIndex demoHash [['5', ':', '1', ':', 'A'], ['5', ':', '2', ':', 'B']]).1 5 =
      countSeek
        (loadIndex demoHash [['5', ':', '1', ':', 'A'], ['5', ':', '2', ':', 'B']]).1.offsets
        5 ∧
    sizeAt demoState 1024 ≤
      sizeAt (loadLines demoHash demoState [['5', ':', '1', ':', 'A']]).1 1024 :=
  claim_C2_count_invariant demoHash [['5', ':', '1', ':', 'A'], ['5', ':', '2', ':', 'B']] 5
    1024 demoState [['5', ':', '1', ':', 'A']] (by decide) (by decide)

/-- C5: the decode loop of `readArticle` never returns a document whose id
differs from the target; it returns the first matching document immediately;
its result depends only on the first `k` decode positions (at most `k`
attempts, `k` the recorded collision count); and if all `k` decoded documents
mismatch it fails with the `after k tries` message. -/
theorem claim_C5_decode_loop (archive : Int → Nat → Except String page)
    (st : IndexState) (meta : indexEntry) :
    (∀ p, readArticle archive st meta = .ok p → p.ID = meta.id) ∧
    (∀ j p, j < sizeAt st meta.seek → archive meta.seek j = .ok p → p.ID = meta.id →
      (∀ r, r < j → ∃ q, archive meta.seek r = .ok q ∧ q.ID ≠ meta.id) →
      readArticle archive st meta = .ok p) ∧
    (∀ archive2 : Int → Nat → Except String page,
      (∀ r, r < sizeAt st meta.seek → archive2 meta.seek r = archive meta.seek r) →
      readArticle archive2 st meta = readArticle archive st meta) ∧
    ((∀ r, r < sizeAt st meta.seek → ∃ q, archive meta.seek r = .ok q ∧ q.ID ≠ meta.id) →
      readArticle archive st meta =
        .error ("failed to find page after " ++ toString (sizeAt st meta.seek) ++ " tries")) := by
  unfold sizeAt
  simp only [readArticle, readArticleS]
  refine ⟨?_, ?_, ?_, ?_⟩
  · intro p h
    exact locateLoop_ok_id (archive meta.seek) meta.id _ _ 0 p h
  · intro j p hj hd hp hpre
    exact locateLoop_first (archive meta.seek) meta.id _ _ 0 j p (Nat.zero_le j) (by omega)
      hd hp (fun r _ hr => hpre r hr)
  · intro a2 hag
    exact locateLoop_congr (archive meta.seek) (a2 meta.seek) meta.id _ _ 0
      (fun r _ hr => hag r (by omega))
  · intro hall
    exact locateLoop_exhaust (archive meta.seek) meta.id _ _ 0 (fun r _ hr => hall r (by omega))

/-- Witness for C5: in a two-document block at offset 1024 where id 42 comes
first, looking up id 43 skips the first document and returns the second. -/
theorem claim_C5_witness :
    readArticle demoArchive demoState ⟨43, 1024⟩ = .ok page43 :=
  (claim_C5_decode_loop demoArchive demoState ⟨43, 1024⟩).2.1 1 page43 (by decide) (by decide)
    (by decide)
    (fun r hr => by
      have hr0 : r = 0 := Nat.lt_one_iff.mp hr
      subst hr0
      exact ⟨page42, by decide, by decide⟩)

/-- C9: when a later line's title hashes to the same key as an earlier line's
(for example a duplicated title), the build completes without error and the
map ends up holding the later line's entry under that hash. -/
theorem claim_C9_last_write_wins (hash : List Char → Nat) (pre mid post : List (List Char))
    (l1 l2 : List Char) (o1 i1 o2 i2 : Int) (t1 t2 : List Char)
    (hv : ∀ l' ∈ pre ++ l1 :: (mid ++ l2 :: post), validLine l' = true)
    (h1 : parseLine l1 = .ok (o1, i1, t1))
    (h2 : parseLine l2 = .ok (o2, i2, t2))
    (hcol : hash t1 = hash t2)
    (hafter : ∀ l' ∈ post, lineHash hash l' ≠ hash t2) :
    (loadIndex hash (pre ++ l1 :: (mid ++ l2 :: post))).2 = none ∧
    getKV (loadIndex hash (pre ++ l1 :: (mid ++ l2 :: post))).1.offsets (hash t2) =
      some ⟨i2, o2⟩ := by
  refine ⟨loadLines_valid_none hash _ initState hv, ?_⟩
  unfold loadIndex
  have hpre : ∀ l' ∈ pre, validLine l' = true := fun l' h' => hv l' (by simp [h'])
  have hnone1 : (loadLines hash initState pre).2 = none :=
    loadLines_valid_none hash pre initState hpre
  rw [loadLines_append hash pre initState _ hnone1]
  obtain ⟨stB, hpl1⟩ :=
    processLine_ok_of_valid hash (loadLines hash initState pre).1 l1 (hv l1 (by simp))
  rw [loadLines_cons_ok hash (loadLines hash initState pre).1 l1 stB _ hpl1]
  have hmid : ∀ l' ∈ mid, validLine l' = true := fun l' h' => hv l' (by simp [h'])
  rw [loadLines_append hash mid stB _ (loadLines_valid_none hash mid stB hmid)]
  have hpl2 := processLine_of_parse hash (loadLines hash stB mid).1 l2 o2 i2 t2 h2
  rw [loadLines_cons_ok hash (loadLines hash stB mid).1 l2 _ post hpl2]
  rw [loadLines_frame hash post (hash t2) _ hafter]
  exact getKV_setKV_self (loadLines hash stB mid).1.offsets (hash t2) ⟨i2, o2⟩

/-- Witness for C9: lines `5:1:A` and `7:2:A` share the title `A`; the build
succeeds and the surviving entry is the later one (id 2, offset 7). -/
theorem claim_C9_witness :
    (loadIndex demoHash
        ([] ++ ['5', ':', '1', ':', 'A'] :: ([] ++ ['7', ':', '2', ':', 'A'] :: []))).2 =
      none ∧
    getKV
        (loadIndex demoHash
          ([] ++ ['5', ':', '1', ':', 'A'] :: ([] ++ ['7', ':', '2', ':', 'A'] :: []))).1.offsets
        (demoHash ['A']) = some ⟨2, 7⟩ :=
  claim_C9_last_write_wins demoHash [] [] [] ['5', ':', '1', ':', 'A'] ['7', ':', '2', ':', 'A']
    5 1 7 2 ['A'] ['A'] (by decide) (by decide) (by decide) rfl (by simp)
